import Mathlib

/-!
Tool-call orchestration of easy-openai (`chatwrapper.go`).

A shallow embedding of the streaming tool-call wrapper in `chatwrapper.go`:
the fragment merger `fillToolCalls`, the stream relay `chatCompletion`, the
dispatcher `dealToolCalls` with its execution policy
`CanConcurrentDealToolCalls`, the recursive driver
`chatCompletionStreamWithCall` and the entry point
`CreateChatCompletionStream`.

Modelling conventions

* Go strings are `String`; slices are `List`; a `nil` function value is `none`.
* Channels are the list of values sent on them, in send order; closing the
  channel ends the list.
* `lo.RandomString` is an oracle `Nat → String`.
* The provider (`client.CreateChatCompletionStream` and `stream.Recv`) is an
  oracle returning either a start error or the finite list of received
  responses together with the way the stream ended.
* Goroutines started by `errgroup` are interleaved by an explicit scheduler
  oracle.
* The recursion of `chatCompletionStreamWithCall` has no bound in the source;
  the model takes a fuel argument and reports `Run.timeout` when it runs out.
-/

namespace Myai

/-! ## Data model (the fields of the go-openai types that the wrapper touches) -/

/-- Go `openai.FunctionCall`. -/
structure FunctionCall where
  Name : String
  Arguments : String
deriving DecidableEq, Repr

/-- Go `openai.ToolCall`; `Kind` is the Go field `Type`. -/
structure ToolCall where
  Index : Option Int
  ID : String
  Kind : String
  Function : FunctionCall
deriving DecidableEq, Repr

/-- Go `openai.ChatCompletionStreamChoiceDelta`. -/
structure Delta where
  Content : String
  Role : String
  ToolCalls : List ToolCall
deriving DecidableEq, Repr

/-- Go `openai.ChatCompletionStreamChoice`. -/
structure Choice where
  Index : Nat
  Delta : Delta
  FinishReason : String
deriving DecidableEq, Repr

/-- Go `openai.ChatCompletionStreamResponse`. -/
structure Response where
  ID : String
  Choices : List Choice
deriving DecidableEq, Repr

/-- Go `openai.ChatCompletionMessage`. -/
structure Message where
  Role : String
  Content : String
  ToolCalls : List ToolCall
  ToolCallID : String
deriving DecidableEq, Repr

/-- Go `openai.FunctionDefinition` (the schema is kept as text). -/
structure FunctionDefinition where
  Name : String
  Parameters : String
deriving DecidableEq, Repr

/-- Go `openai.Tool` (`Function` is a pointer in Go; tools are taken with it set). -/
structure Tool where
  Kind : String
  Function : FunctionDefinition
deriving DecidableEq, Repr

/-- Go `openai.ChatCompletionRequest`. -/
structure ChatCompletionRequest where
  Model : String
  Messages : List Message
  Tools : List Tool
deriving DecidableEq, Repr

def ChatMessageRoleAssistant : String := "assistant"
def ChatMessageRoleTool : String := "tool"
def DefaultTipRole : String := "tip"

/-! ## `fillToolCalls` -/

/-- Go `fillToolCalls`. `rid` is the value `lo.RandomString(30, lo.LettersCharset)`
would return; it is only used in the branch that starts a new call. The slice
holds pointers, so the first branch updates the last record in place. -/
def fillToolCalls (rid : String) (calls : List ToolCall) (call : ToolCall) : List ToolCall :=
  match calls.getLast? with
  | some last =>
    if call.ID = "" then
      calls.dropLast ++
        [{ last with Function :=
            { last.Function with Arguments := last.Function.Arguments ++ call.Function.Arguments } }]
    else
      calls ++ [{ Index := call.Index, ID := rid, Kind := call.Kind,
                  Function := { Name := call.Function.Name, Arguments := call.Function.Arguments } }]
  | none =>
    calls ++ [{ Index := call.Index, ID := rid, Kind := call.Kind,
                Function := { Name := call.Function.Name, Arguments := call.Function.Arguments } }]

/-- The loop `for _, call := range choice.Delta.ToolCalls { toolCalls = fillToolCalls(toolCalls, call) }`.
Every random draw appends one record, so the draw made with `calls` accumulated
is draw number `calls.length` of the turn. -/
def fillAll (rnd : Nat → String) (calls : List ToolCall) (frags : List ToolCall) : List ToolCall :=
  frags.foldl (fun acc call => fillToolCalls (rnd acc.length) acc call) calls

/-- What the merge law promises for a fragment sequence, in the words of the
specification: one call per fragment with a non-empty identifier, named after
that fragment, whose arguments are the fragment's arguments followed by the
arguments of the empty-identifier fragments that come directly after it. -/
def mergedCalls (frags : List ToolCall) : List (String × String) :=
  frags.tails.filterMap fun t =>
    match t with
    | [] => none
    | f :: rest =>
      if f.ID = "" then none
      else some (f.Function.Name,
        f.Function.Arguments ++
          String.join ((rest.takeWhile fun g => g.ID = "").map fun g => g.Function.Arguments))

/-- Name and arguments of an accumulated call. -/
def ToolCall.view (c : ToolCall) : String × String := (c.Function.Name, c.Function.Arguments)

/-! ## Tools, registry, options -/

/-- Go `Args`. -/
structure Args where
  s : String
deriving DecidableEq, Repr

/-- Go `NewArgs`. -/
def NewArgs (s : String) : Args := ⟨s⟩

/-- Go `Args.OriginalArgument`. -/
def Args.OriginalArgument (args : Args) : String := args.s

/-- One run of a handler: the events it sends on the forwarding channel, in
send order, and the `(string, error)` pair it returns (`err = none` is Go
`nil`, otherwise the text of `err.Error()`). -/
structure CallResult where
  sent : List Response
  res : String
  err : Option String
deriving DecidableEq, Repr

/-- Go `CallFn`: a handler is what one run of it does on the call's arguments (the
context is not modelled; the channel is the list `sent`). -/
abbrev CallFn := Args → CallResult

/-- Go `C`. A Go function value may be `nil`: `CallFn = none`. -/
structure C where
  Tool : Tool
  CallFn : Option CallFn
  Concurrent : Bool

/-- The zero value of `C`, which indexing a Go map yields for an absent key. -/
def C.zero : C := { Tool := { Kind := "", Function := { Name := "", Parameters := "" } },
                    CallFn := none, Concurrent := false }

/-- Go `map[string]C`, newest binding first. -/
abbrev Registry := List (String × C)

/-- Go `v, ok := m[name]`. -/
def Registry.get (m : Registry) (name : String) : C × Bool :=
  match m.lookup name with
  | some c => (c, true)
  | none => (C.zero, false)

/-- Go `m[name] = c`. -/
def Registry.set (m : Registry) (name : String) (c : C) : Registry := (name, c) :: m

/-- Go `option`. -/
structure option where
  tools : List C
  sessionID : String

/-- Go `newOption`. -/
def newOption : option := { tools := [], sessionID := "" }

/-- Go `OptionFunc`. -/
abbrev OptionFunc := option → option

/-- Go `WithTools`. -/
def WithTools (tools : List C) : OptionFunc := fun o => { o with tools := tools }

/-- Go `WithSessionID`. -/
def WithSessionID (sessionID : String) : OptionFunc := fun o => { o with sessionID := sessionID }

/-! ## Conversation state -/

/-- Go `ToolCallReq` (the mutex serialises the two methods; each is atomic here). -/
structure ToolCallReq where
  req : ChatCompletionRequest
deriving DecidableEq, Repr

/-- Go `NewToolCallReq`. -/
def NewToolCallReq (req : ChatCompletionRequest) : ToolCallReq := ⟨req⟩

/-- Go `ToolCallReq.AddMessage`. -/
def ToolCallReq.AddMessage (t : ToolCallReq) (message : Message) : ToolCallReq :=
  ⟨{ t.req with Messages := t.req.Messages ++ [message] }⟩

/-- Go `ToolCallReq.ToOpenAIRequest`. -/
def ToolCallReq.ToOpenAIRequest (t : ToolCallReq) : ChatCompletionRequest := t.req

/-! ## Provider oracle -/

/-- How `stream.Recv` stops: `io.EOF`, or another error, whose text and the
response value returned with it are recorded. -/
inductive StreamEnd where
  | eof
  | failure (err : String) (response : Response)
deriving DecidableEq, Repr

/-- The responses `stream.Recv` returns without error, then the end. -/
structure ProviderStream where
  events : List Response
  ending : StreamEnd
deriving DecidableEq, Repr

/-- Go `c.client.CreateChatCompletionStream(ctx, req)`: a start error or a stream. -/
abbrev Client := ChatCompletionRequest → Except String ProviderStream

/-! ## Stream relay: `chatCompletion` -/

/-- Go `errorResp`. -/
def errorResp (err : String) : Response :=
  { ID := "",
    Choices := [{ Index := 0,
                  Delta := { Content := err, Role := ChatMessageRoleAssistant, ToolCalls := [] },
                  FinishReason := "" }] }

/-- The aggregated event `chatCompletion` sends after its loop. -/
def aggregated (toolCalls : List ToolCall) : Response :=
  { ID := "",
    Choices := [{ Index := 0,
                  Delta := { Content := "", Role := "", ToolCalls := toolCalls },
                  FinishReason := "" }] }

/-- Variables of the goroutine in `chatCompletion`: the accumulator, the flag
and what has been sent on `ch`. -/
structure RelayState where
  toolCalls : List ToolCall
  isToolCall : Bool
  ch : List Response
deriving DecidableEq, Repr

/-- Variables of the loop over `response.Choices`. -/
structure Scan where
  toolCalls : List ToolCall
  isToolCall : Bool
  hasContent : Bool
deriving DecidableEq, Repr

/-- Body of `for _, choice := range response.Choices`. -/
def choiceStep (rnd : Nat → String) (sc : Scan) (choice : Choice) : Scan :=
  if choice.Delta.ToolCalls.length > 0 then
    { sc with isToolCall := true, toolCalls := fillAll rnd sc.toolCalls choice.Delta.ToolCalls }
  else if choice.Delta.Content ≠ "" then
    { sc with hasContent := true }
  else sc

/-- Body of the receive loop for a response received without error. -/
def recvStep (rnd : Nat → String) (st : RelayState) (response : Response) : RelayState :=
  let sc := response.Choices.foldl (choiceStep rnd)
    { toolCalls := st.toolCalls, isToolCall := st.isToolCall, hasContent := false }
  if !sc.hasContent || sc.isToolCall then
    { toolCalls := sc.toolCalls, isToolCall := sc.isToolCall, ch := st.ch }
  else if !sc.isToolCall then
    { toolCalls := sc.toolCalls, isToolCall := sc.isToolCall, ch := st.ch ++ [response] }
  else
    { toolCalls := sc.toolCalls, isToolCall := sc.isToolCall, ch := st.ch }

/-- The goroutine of `chatCompletion`: everything it sends on `ch` before closing it. -/
def relay (rnd : Nat → String) (stream : ProviderStream) : List Response :=
  let st := stream.events.foldl (recvStep rnd) { toolCalls := [], isToolCall := false, ch := [] }
  let st := match stream.ending with
    | .eof => st
    | .failure _ response => if !st.isToolCall then { st with ch := st.ch ++ [response] } else st
  if st.isToolCall then st.ch ++ [aggregated st.toolCalls] else st.ch

/-- Go `chatCompletion`: the start error, or the contents of the returned channel. -/
def chatCompletion (client : Client) (rnd : Nat → String) (req : ChatCompletionRequest) :
    Except String (List Response) :=
  match client req with
  | .error err => .error err
  | .ok stream => .ok (relay rnd stream)

/-! ## Tool dispatcher: `dealToolCalls` -/

/-- The observable steps of running tool calls: a handler is entered, an event
is sent on the forwarding channel, a message is appended to the conversation. -/
inductive Action where
  | invoke (call : ToolCall)
  | send (r : Response)
  | addMessage (m : Message)
deriving DecidableEq, Repr

/-- What `dealToolCalls` works on: the conversation `tm`, what has been sent on
`ch`, and (ghost) the steps taken so far. -/
structure World where
  tm : ToolCallReq
  ch : List Response
  trace : List Action
deriving DecidableEq, Repr

/-- Effect of one step. -/
def World.step (w : World) (a : Action) : World :=
  match a with
  | .invoke _ => { w with trace := w.trace ++ [a] }
  | .send r => { w with ch := w.ch ++ [r], trace := w.trace ++ [a] }
  | .addMessage m => { w with tm := w.tm.AddMessage m, trace := w.trace ++ [a] }

/-- Effect of a sequence of steps. -/
def World.run (w : World) (acts : List Action) : World := acts.foldl World.step w

/-- The text `callFn` stores as the call's result: `res`, replaced by
`err.Error()` when the handler returned an error. -/
def CallResult.text (r : CallResult) : String :=
  match r.err with
  | some e => e
  | none => r.res

/-- The closure `callFn` of `dealToolCalls`, as the steps it takes in program
order and the error it returns (always `nil`). `none` is the runtime panic of
calling a `nil` function value: `calls2[name]` is the zero `C` for an absent
name and `.CallFn` is not checked. -/
def callFn (calls2 : Registry) (call : ToolCall) : Option (List Action × Option String) :=
  match (calls2.get call.Function.Name).1.CallFn with
  | none => none
  | some fn =>
    let r := fn (NewArgs call.Function.Arguments)
    some (Action.invoke call :: r.sent.map Action.send ++
            [Action.addMessage { Role := ChatMessageRoleTool, Content := r.text,
                                 ToolCalls := [], ToolCallID := call.ID }],
          none)

/-- Go `CanConcurrentDealToolCalls`. -/
def CanConcurrentDealToolCalls : List ToolCall → Registry → Bool
  | [], _ => true
  | call :: rest, calls2 =>
    let (callDef, ok) := calls2.get call.Function.Name
    if ok && !callDef.Concurrent then false
    else CanConcurrentDealToolCalls rest calls2

/-- Outcome of `dealToolCalls`: it returns (with `nil` or an error) or the
process panics. -/
inductive Dealt where
  | ret (w : World) (err : Option String)
  | panic
deriving DecidableEq, Repr

/-- The `else` branch of `dealToolCalls`: one call after the other. -/
def dealSequential (calls2 : Registry) : World → List ToolCall → Dealt
  | w, [] => .ret w none
  | w, call :: rest =>
    match callFn calls2 call with
    | none => .panic
    | some (acts, some err) => .ret (w.run acts) (some err)
    | some (acts, none) => dealSequential calls2 (w.run acts) rest

/-- Two goroutines interleaved: the oracle says whose step comes next; when it
is exhausted or one side is done, the rest follows. -/
def merge {α : Type} : List Bool → List α → List α → List α
  | _, [], ys => ys
  | _, x :: xs, [] => x :: xs
  | [], x :: xs, y :: ys => x :: xs ++ y :: ys
  | true :: s, x :: xs, y :: ys => x :: merge s xs (y :: ys)
  | false :: s, x :: xs, y :: ys => y :: merge s (x :: xs) ys

/-- Any number of goroutines interleaved, each keeping its program order. -/
def interleave {α : Type} : List (List Bool) → List (List α) → List α
  | _, [] => []
  | sched, t :: ts => merge (sched.headD []) t (interleave sched.tail ts)

/-- The `errgroup` branch of `dealToolCalls`: one goroutine per call, their
steps interleaved by the scheduler; `wg.Wait` returns the first error (`callFn`
only ever returns `nil`, so the first in batch order stands for the first in
time). A goroutine that calls a `nil` handler panics the process whatever the
others do. -/
def dealConcurrent (sched : List (List Bool)) (calls2 : Registry) (w : World)
    (toolCalls : List ToolCall) : Dealt :=
  let threads := toolCalls.map (callFn calls2)
  if threads.any Option.isNone then .panic
  else
    let done := threads.reduceOption
    .ret (w.run (interleave sched (done.map Prod.fst))) (done.filterMap Prod.snd).head?

/-- Go `dealToolCalls`. -/
def dealToolCalls (sched : List (List Bool)) (w : World) (toolCalls : List ToolCall)
    (calls2 : Registry) : Dealt :=
  let w := w.step (.addMessage { Role := ChatMessageRoleAssistant, Content := "",
                                 ToolCalls := toolCalls, ToolCallID := "" })
  if CanConcurrentDealToolCalls toolCalls calls2 then
    dealConcurrent sched calls2 w toolCalls
  else
    dealSequential calls2 w toolCalls

/-! ## Orchestration loop: `chatCompletionStreamWithCall` -/

/-- Outcome of `chatCompletionStreamWithCall`: the channel it returns, as the
events sent on it until it is closed, with the final conversation; or the error
it returns instead of a channel; or a panic; or the model ran out of fuel. -/
inductive Run where
  | ok (out : List Response) (tm : ToolCallReq)
  | err (e : String)
  | panic
  | timeout
deriving DecidableEq, Repr

/-- Variables of the loop `for resp := range completion`. -/
structure Pump where
  isToolCall : Bool
  toolCalls : List ToolCall
  resCh : List Response
deriving DecidableEq, Repr

/-- Body of `for resp := range completion`. -/
def pumpStep (p : Pump) (resp : Response) : Pump :=
  match resp.Choices with
  | choice :: _ =>
    if choice.Delta.ToolCalls.length > 0 then
      { p with isToolCall := true, toolCalls := choice.Delta.ToolCalls }
    else { p with resCh := p.resCh ++ [resp] }
  | [] => { p with resCh := p.resCh ++ [resp] }

/-- Go `chatCompletionStreamWithCall`. `turn` counts the provider calls made so
far; the provider, the random source and the scheduler are oracles indexed by it. -/
def chatCompletionStreamWithCall (client : Nat → Client) (rnd : Nat → Nat → String)
    (sched : Nat → List (List Bool)) (calls : Registry) : Nat → Nat → ToolCallReq → Run
  | 0, _, _ => .timeout
  | fuel + 1, turn, req =>
    match chatCompletion (client turn) (rnd turn) req.ToOpenAIRequest with
    | .error err => .err err
    | .ok completion =>
      let p := completion.foldl pumpStep { isToolCall := false, toolCalls := [], resCh := [] }
      if p.isToolCall then
        match dealToolCalls (sched turn) { tm := req, ch := p.resCh, trace := [] } p.toolCalls calls with
        | .panic => .panic
        | .ret w (some err) => .ok (w.ch ++ [errorResp err]) w.tm
        | .ret w none =>
          match chatCompletionStreamWithCall client rnd sched calls fuel (turn + 1) w.tm with
          | .err err => .ok (w.ch ++ [errorResp err]) w.tm
          | .ok streamCompletion tm => .ok (w.ch ++ streamCompletion) tm
          | .panic => .panic
          | .timeout => .timeout
      else .ok p.resCh req

/-! ## Entry point: `CreateChatCompletionStream` -/

/-- The request and the registry `CreateChatCompletionStream` builds before it
starts the loop (the log line is dropped). -/
def prepare (req : ChatCompletionRequest) (opts : List OptionFunc) :
    ChatCompletionRequest × Registry :=
  let opt := opts.foldl (fun o fn => fn o) newOption
  let tools := opt.tools.foldl (fun (_ : List Tool) call => req.Tools ++ [call.Tool]) []
  let req := { req with Tools := tools }
  let mc := opt.tools.foldl (fun (mc : Registry) call => mc.set call.Tool.Function.Name call) []
  (req, mc)

/-- Go `CreateChatCompletionStream`. -/
def CreateChatCompletionStream (client : Nat → Client) (rnd : Nat → Nat → String)
    (sched : Nat → List (List Bool)) (fuel : Nat) (req : ChatCompletionRequest)
    (opts : List OptionFunc) : Run :=
  let (req, mc) := prepare req opts
  chatCompletionStreamWithCall client rnd sched mc fuel 0 (NewToolCallReq req)

/-! ## Vocabulary of the statements -/

/-- The record `fillToolCalls` appends when it starts a new call. -/
def started (rid : String) (call : ToolCall) : ToolCall :=
  { Index := call.Index, ID := rid, Kind := call.Kind,
    Function := { Name := call.Function.Name, Arguments := call.Function.Arguments } }

/-- Some choice of the event has tool-call fragments (the test `chatCompletion` makes). -/
def Response.carriesToolCalls (r : Response) : Bool :=
  r.Choices.any fun c => decide (c.Delta.ToolCalls.length > 0)

/-- Some choice of the event has non-empty textual content. -/
def Response.carriesContent (r : Response) : Bool :=
  r.Choices.any fun c => decide (c.Delta.Content ≠ "")

/-- The tool-call fragments of an event, in arrival order. -/
def Response.fragments (r : Response) : List ToolCall :=
  r.Choices.flatMap fun c => c.Delta.ToolCalls

/-- The tool-call fragments of a turn, in arrival order. -/
def fragments (evs : List Response) : List ToolCall := evs.flatMap Response.fragments

/-- The message a step appends to the conversation, if it is such a step. -/
def Action.message? : Action → Option Message
  | .addMessage m => some m
  | _ => none

/-- The event a step sends on the forwarding channel, if it is such a step. -/
def Action.sent? : Action → Option Response
  | .send r => some r
  | _ => none

/-- The call whose handler a step enters, if it is such a step. -/
def Action.invoked? : Action → Option ToolCall
  | .invoke c => some c
  | _ => none

/-- What the handler registered under the call's name does with the call's arguments. -/
def runHandler (calls2 : Registry) (call : ToolCall) : CallResult :=
  match (calls2.get call.Function.Name).1.CallFn with
  | some fn => fn (NewArgs call.Function.Arguments)
  | none => { sent := [], res := "", err := none }

/-- The tool-role message that answers a call. -/
def resultMessage (calls2 : Registry) (call : ToolCall) : Message :=
  { Role := ChatMessageRoleTool, Content := (runHandler calls2 call).text,
    ToolCalls := [], ToolCallID := call.ID }

/-- The steps of one execution of a call: the handler is entered, sends its
events, and the answer is appended. -/
def callSteps (calls2 : Registry) (call : ToolCall) : List Action :=
  Action.invoke call :: (runHandler calls2 call).sent.map Action.send ++
    [Action.addMessage (resultMessage calls2 call)]

/-- The assistant-role message that records a tool-call batch. -/
def batchMessage (toolCalls : List ToolCall) : Message :=
  { Role := ChatMessageRoleAssistant, Content := "", ToolCalls := toolCalls, ToolCallID := "" }

/-- The call's name is registered, with a handler. -/
def Resolves (calls2 : Registry) (call : ToolCall) : Prop :=
  ∃ c fn, calls2.lookup call.Function.Name = some c ∧ c.CallFn = some fn

/-- A finite chain of turns that starts with provider call number `turn` on the
conversation `tm` and ends with the conversation `tm'`. Every turn but the last
ends with a tool batch: its relay output is content events followed by the
aggregated event of a non-empty batch, and the dispatcher returns without error.
The last turn's relay output has no event carrying tool calls. The chain is
recorded as one pair per turn: the content events the relay forwarded and the
events the handlers of the turn's batch sent. -/
inductive Chain (client : Nat → Client) (rnd : Nat → Nat → String)
    (sched : Nat → List (List Bool)) (calls : Registry) :
    Nat → ToolCallReq → List (List Response × List Response) → ToolCallReq → Prop where
  | last (turn : Nat) (tm : ToolCallReq) (content : List Response) :
      chatCompletion (client turn) (rnd turn) tm.ToOpenAIRequest = .ok content →
      (∀ e ∈ content, e.carriesToolCalls = false) →
      Chain client rnd sched calls turn tm [(content, [])] tm
  | next (turn : Nat) (tm : ToolCallReq) (content : List Response) (batch : List ToolCall)
      (w : World) (segs : List (List Response × List Response)) (tm' : ToolCallReq) :
      chatCompletion (client turn) (rnd turn) tm.ToOpenAIRequest
        = .ok (content ++ [aggregated batch]) →
      (∀ e ∈ content, e.carriesToolCalls = false) →
      batch ≠ [] →
      dealToolCalls (sched turn) { tm := tm, ch := content, trace := [] } batch calls
        = .ret w none →
      Chain client rnd sched calls (turn + 1) w.tm segs tm' →
      Chain client rnd sched calls turn tm
        ((content, w.trace.filterMap Action.sent?) :: segs) tm'

/-- The caller-visible output a chain stands for: turn after turn, the content
events and then the events of the handlers. -/
def chainOutput (segs : List (List Response × List Response)) : List Response :=
  segs.flatMap fun p => p.1 ++ p.2

/-! ## The scenarios of the specification -/

/-- A content event with the given text. -/
def contentEvent (text : String) : Response :=
  { ID := "chunk",
    Choices := [{ Index := 0, Delta := { Content := text, Role := "assistant", ToolCalls := [] },
                  FinishReason := "" }] }

/-- An event carrying the given tool-call fragments. -/
def fragmentEvent (frags : List ToolCall) : Response :=
  { ID := "chunk",
    Choices := [{ Index := 0, Delta := { Content := "", Role := "assistant", ToolCalls := frags },
                  FinishReason := "" }] }

/-- The fragment of the merge law that starts a call to `f` under the identifier `c1`. -/
def mergeLawStart : ToolCall :=
  { Index := some 0, ID := "c1", Kind := "function",
    Function := { Name := "f", Arguments := "\x7b\"x\":" } }

/-- The fragment of the merge law that continues the call. -/
def mergeLawContinuation : ToolCall :=
  { Index := some 0, ID := "", Kind := "",
    Function := { Name := "", Arguments := "1\x7d" } }

/-- The fragments of the merge law. -/
def mergeLawFragments : List ToolCall := [mergeLawStart, mergeLawContinuation]

/-- A tool named `name` whose handler sends nothing and returns `res` and `err`. -/
def constTool (name res : String) (err : Option String) (concurrent : Bool) : C :=
  { Tool := { Kind := "function", Function := { Name := name, Parameters := "" } },
    CallFn := some fun _ => { sent := [], res := res, err := err },
    Concurrent := concurrent }

/-- A call to the tool `name`. -/
def callTo (id name args : String) : ToolCall :=
  { Index := some 0, ID := id, Kind := "function",
    Function := { Name := name, Arguments := args } }

/-- The provider of the recursive-continuation scenario: the first turn asks for
one call to `f`; every later turn answers with the content of the last message
of the conversation it is sent. -/
def scenarioClient : Nat → Client := fun turn req =>
  if turn = 0 then
    .ok { events := [fragmentEvent [callTo "c1" "f" "\x7b\x7d"]], ending := .eof }
  else
    .ok { events := [contentEvent ("Answer: " ++ (req.Messages.getLast?.map Message.Content).getD "")],
          ending := .eof }

/-- The request of the scenarios. -/
def scenarioRequest : ChatCompletionRequest :=
  { Model := "m", Messages := [{ Role := "user", Content := "?", ToolCalls := [], ToolCallID := "" }],
    Tools := [] }

/-- The response value of go-openai for a failed `Recv`: the zero value. -/
def zeroResponse : Response := { ID := "", Choices := [] }

/-- A registry with a tool whose handler fails with "not found" and a tool that returns "42". -/
def sampleRegistry : Registry :=
  [("lookup", constTool "lookup" "" (some "not found") true), ("f", constTool "f" "42" none true)]

/-- The same tools, `lookup` not being safe to run concurrently. -/
def sampleSequentialRegistry : Registry :=
  [("lookup", constTool "lookup" "" (some "not found") false), ("f", constTool "f" "42" none true)]

/-- A batch of two registered calls. -/
def sampleBatch : List ToolCall :=
  [callTo "id1" "lookup" "\x7b\x7d", callTo "id2" "f" "\x7b\x7d"]

/-- The conversation of the scenarios with nothing sent yet. -/
def sampleWorld : World := { tm := NewToolCallReq scenarioRequest, ch := [], trace := [] }

/-- A turn with content, then a fragmented tool call, then late content. -/
def sampleStream : ProviderStream :=
  { events := [contentEvent "hi", fragmentEvent [mergeLawStart],
               fragmentEvent [mergeLawContinuation], contentEvent "late"],
    ending := .eof }

/-- A turn of plain content, one event of which is empty. -/
def sampleContent : List Response := [contentEvent "a", contentEvent "", contentEvent "b"]

/-- The registry of the recursive-continuation scenario. -/
def scenarioRegistry : Registry := [("f", constTool "f" "42" none true)]

/-- The call of the recursive-continuation scenario as the relay accumulates it. -/
def scenarioCall : ToolCall := started "id" (callTo "c1" "f" "\x7b\x7d")

/-- The batch of the recursive-continuation scenario. -/
def scenarioBatch : List ToolCall := [scenarioCall]

/-- The conversation of the recursive-continuation scenario after the first turn. -/
def scenarioWorld : World :=
  ({ tm := NewToolCallReq scenarioRequest, ch := [], trace := [] } : World).run
    (Action.addMessage (batchMessage scenarioBatch) :: callSteps scenarioRegistry scenarioCall)

/-! ## Lemmas -/

theorem fillToolCalls_nil (rid : String) (call : ToolCall) :
    fillToolCalls rid [] call = [started rid call] := by
  simp [fillToolCalls, started]

theorem fillToolCalls_snoc_cont (rid : String) (init : List ToolCall) (l call : ToolCall)
    (h : call.ID = "") :
    fillToolCalls rid (init ++ [l]) call =
      init ++ [{ l with Function :=
        { l.Function with Arguments := l.Function.Arguments ++ call.Function.Arguments } }] := by
  simp [fillToolCalls, h]

theorem fillToolCalls_snoc_start (rid : String) (init : List ToolCall) (l call : ToolCall)
    (h : call.ID ≠ "") :
    fillToolCalls rid (init ++ [l]) call = init ++ [l] ++ [started rid call] := by
  simp [fillToolCalls, h, started]

theorem mergedCalls_nil : mergedCalls [] = [] := by
  simp [mergedCalls]

theorem mergedCalls_cons_cont (f : ToolCall) (rest : List ToolCall) (h : f.ID = "") :
    mergedCalls (f :: rest) = mergedCalls rest := by
  simp [mergedCalls, h]

theorem mergedCalls_cons_start (f : ToolCall) (rest : List ToolCall) (h : f.ID ≠ "") :
    mergedCalls (f :: rest) =
      (f.Function.Name, f.Function.Arguments ++
        String.join ((rest.takeWhile fun g => g.ID = "").map fun g => g.Function.Arguments))
        :: mergedCalls rest := by
  simp [mergedCalls, h]

theorem string_join_cons (a : String) (l : List String) :
    String.join (a :: l) = a ++ String.join l := by
  apply String.ext
  simp [String.join_eq]

theorem fillAll_nil (rnd : Nat → String) (calls : List ToolCall) : fillAll rnd calls [] = calls := rfl

theorem fillAll_cons (rnd : Nat → String) (calls : List ToolCall) (f : ToolCall)
    (rest : List ToolCall) :
    fillAll rnd calls (f :: rest) = fillAll rnd (fillToolCalls (rnd calls.length) calls f) rest := rfl

theorem fillAll_append (rnd : Nat → String) (calls xs ys : List ToolCall) :
    fillAll rnd calls (xs ++ ys) = fillAll rnd (fillAll rnd calls xs) ys := by
  simp [fillAll, List.foldl_append]

/-- Folding from an accumulator whose last record is `l`: the continuation
fragments at the front extend `l`, the rest is merged as the specification says. -/
theorem fillAll_snoc_view (rnd : Nat → String) (frags : List ToolCall) :
    ∀ (init : List ToolCall) (l : ToolCall),
      (fillAll rnd (init ++ [l]) frags).map ToolCall.view =
        init.map ToolCall.view ++
          (l.Function.Name, l.Function.Arguments ++
            String.join ((frags.takeWhile fun g => g.ID = "").map fun g => g.Function.Arguments))
            :: mergedCalls frags := by
  induction frags with
  | nil =>
    intro init l
    simp [fillAll_nil, mergedCalls_nil, ToolCall.view, String.join]
  | cons f rest ih =>
    intro init l
    rw [fillAll_cons]
    by_cases h : f.ID = ""
    · rw [fillToolCalls_snoc_cont _ _ _ _ h, ih, mergedCalls_cons_cont _ _ h]
      simp [h, string_join_cons, String.append_assoc]
    · rw [fillToolCalls_snoc_start _ _ _ _ h, ih, mergedCalls_cons_start _ _ h]
      simp [h, started, ToolCall.view, String.join]

theorem fillAll_view (rnd : Nat → String) (f : ToolCall) (rest : List ToolCall)
    (h : f.ID ≠ "") :
    (fillAll rnd [] (f :: rest)).map ToolCall.view = mergedCalls (f :: rest) := by
  rw [fillAll_cons, fillToolCalls_nil, mergedCalls_cons_start _ _ h]
  have := fillAll_snoc_view rnd rest [] (started (rnd 0) f)
  simpa [started] using this

theorem mergedCalls_length (frags : List ToolCall) :
    (mergedCalls frags).length = frags.countP (fun g => decide (g.ID ≠ "")) := by
  induction frags with
  | nil => simp [mergedCalls_nil]
  | cons f rest ih =>
    by_cases h : f.ID = ""
    · rw [mergedCalls_cons_cont _ _ h, ih]; simp [List.countP_cons, h]
    · rw [mergedCalls_cons_start _ _ h]; simp [List.countP_cons, h, ih]

theorem scan_fold (rnd : Nat → String) (choices : List Choice) :
    ∀ sc : Scan, choices.foldl (choiceStep rnd) sc =
      { toolCalls := fillAll rnd sc.toolCalls (choices.flatMap fun c => c.Delta.ToolCalls),
        isToolCall := sc.isToolCall || choices.any fun c => decide (c.Delta.ToolCalls.length > 0),
        hasContent := sc.hasContent ||
          choices.any fun c => !decide (c.Delta.ToolCalls.length > 0) && decide (c.Delta.Content ≠ "") } := by
  induction choices with
  | nil => intro sc; simp [fillAll_nil]
  | cons c rest ih =>
    intro sc
    rw [List.foldl_cons, ih]
    by_cases h1 : c.Delta.ToolCalls.length > 0
    · simp [choiceStep, h1, fillAll_append]
    · by_cases h2 : c.Delta.Content = ""
      · have h3 : c.Delta.ToolCalls = [] := by
          cases hc : c.Delta.ToolCalls with
          | nil => rfl
          | cons a l => simp [hc] at h1
        simp [choiceStep, h2, h3, fillAll_nil]
      · have h3 : c.Delta.ToolCalls = [] := by
          cases hc : c.Delta.ToolCalls with
          | nil => rfl
          | cons a l => simp [hc] at h1
        simp [choiceStep, h2, h3, fillAll_nil, Bool.or_assoc]

theorem any_content_of_no_toolCalls (choices : List Choice)
    (h : (choices.any fun c => decide (c.Delta.ToolCalls.length > 0)) = false) :
    (choices.any fun c => !decide (c.Delta.ToolCalls.length > 0) && decide (c.Delta.Content ≠ ""))
      = choices.any fun c => decide (c.Delta.Content ≠ "") := by
  induction choices with
  | nil => rfl
  | cons c rest ih =>
    simp only [List.any_cons, Bool.or_eq_false_iff] at h
    simp only [List.any_cons, ih h.2, h.1]
    simp

theorem recvStep_eq (rnd : Nat → String) (st : RelayState) (r : Response) :
    recvStep rnd st r =
      { toolCalls := fillAll rnd st.toolCalls r.fragments,
        isToolCall := st.isToolCall || r.carriesToolCalls,
        ch := if st.isToolCall || r.carriesToolCalls || !r.carriesContent then st.ch
              else st.ch ++ [r] } := by
  have e1 : (r.Choices.any fun c => decide (c.Delta.ToolCalls.length > 0)) = r.carriesToolCalls := rfl
  have e2 : (r.Choices.any fun c => decide (c.Delta.Content ≠ "")) = r.carriesContent := rfl
  have e3 : (r.Choices.flatMap fun c => c.Delta.ToolCalls) = r.fragments := rfl
  unfold recvStep
  rw [scan_fold]
  cases hT : r.carriesToolCalls with
  | true =>
    simp only [e1, e3, hT]
    simp
  | false =>
    rw [any_content_of_no_toolCalls _ (e1.trans hT)]
    simp only [e1, e2, e3, hT]
    cases hI : st.isToolCall <;> cases hC : r.carriesContent <;> simp

theorem relay_fold (rnd : Nat → String) (evs : List Response) :
    ∀ st : RelayState, evs.foldl (recvStep rnd) st =
      { toolCalls := fillAll rnd st.toolCalls (fragments evs),
        isToolCall := st.isToolCall || evs.any Response.carriesToolCalls,
        ch := st.ch ++ (if st.isToolCall then []
                else (evs.takeWhile fun r => !r.carriesToolCalls).filter Response.carriesContent) } := by
  induction evs with
  | nil => intro st; simp [fragments, fillAll_nil]
  | cons r rest ih =>
    intro st
    rw [List.foldl_cons, ih, recvStep_eq]
    cases hI : st.isToolCall <;> cases hT : r.carriesToolCalls <;> cases hC : r.carriesContent <;>
      simp [fragments, fillAll_append, hT, hC, List.takeWhile_cons, List.filter_cons]

theorem takeWhile_of_all_false (evs : List Response)
    (h : evs.any Response.carriesToolCalls = false) :
    (evs.takeWhile fun r => !r.carriesToolCalls) = evs := by
  induction evs with
  | nil => rfl
  | cons r rest ih =>
    simp only [List.any_cons, Bool.or_eq_false_iff] at h
    simp [List.takeWhile_cons, h.1, ih h.2]

theorem relay_eq (rnd : Nat → String) (s : ProviderStream) :
    relay rnd s =
      if s.events.any Response.carriesToolCalls then
        (s.events.takeWhile fun r => !r.carriesToolCalls).filter Response.carriesContent ++
          [aggregated (fillAll rnd [] (fragments s.events))]
      else
        s.events.filter Response.carriesContent ++
          match s.ending with
          | .eof => []
          | .failure _ response => [response] := by
  unfold relay
  rw [relay_fold]
  cases hT : s.events.any Response.carriesToolCalls with
  | true => cases s.ending <;> simp
  | false => cases s.ending <;> simp [takeWhile_of_all_false _ hT]

theorem fillToolCalls_ne_nil (rid : String) (calls : List ToolCall) (call : ToolCall) :
    fillToolCalls rid calls call ≠ [] := by
  unfold fillToolCalls
  split
  · split <;> simp
  · simp

theorem fillAll_ne_nil_of_ne_nil (rnd : Nat → String) (frags : List ToolCall) :
    ∀ calls : List ToolCall, calls ≠ [] → fillAll rnd calls frags ≠ [] := by
  induction frags with
  | nil => intro calls h; exact h
  | cons f rest ih =>
    intro calls _
    exact ih _ (fillToolCalls_ne_nil _ _ _)

theorem fillAll_ne_nil (rnd : Nat → String) (calls frags : List ToolCall) (h : frags ≠ []) :
    fillAll rnd calls frags ≠ [] := by
  cases frags with
  | nil => exact absurd rfl h
  | cons f rest => exact fillAll_ne_nil_of_ne_nil rnd rest _ (fillToolCalls_ne_nil _ _ _)

theorem fragments_ne_nil (evs : List Response)
    (h : evs.any Response.carriesToolCalls = true) : fragments evs ≠ [] := by
  rw [List.any_eq_true] at h
  obtain ⟨r, hr, hT⟩ := h
  unfold Response.carriesToolCalls at hT
  rw [List.any_eq_true] at hT
  obtain ⟨c, hc, hl⟩ := hT
  intro hn
  have hl2 : c.Delta.ToolCalls ≠ [] := by
    intro h0
    simp [h0] at hl
  apply hl2
  simp only [fragments, Response.fragments, List.flatMap_eq_nil_iff] at hn
  exact hn r hr c hc

theorem aggregated_carries (batch : List ToolCall) (h : batch ≠ []) :
    (aggregated batch).carriesToolCalls = true := by
  cases batch with
  | nil => exact absurd rfl h
  | cons a l => simp [aggregated, Response.carriesToolCalls]

theorem World.run_nil (w : World) : w.run [] = w := rfl

theorem World.run_cons (w : World) (a : Action) (acts : List Action) :
    w.run (a :: acts) = (w.step a).run acts := rfl

theorem World.run_append (w : World) (xs ys : List Action) :
    w.run (xs ++ ys) = (w.run xs).run ys := by
  simp [World.run, List.foldl_append]

theorem World.run_eq (acts : List Action) : ∀ w : World,
    w.run acts =
      { tm := ⟨{ w.tm.req with Messages := w.tm.req.Messages ++ acts.filterMap Action.message? }⟩,
        ch := w.ch ++ acts.filterMap Action.sent?,
        trace := w.trace ++ acts } := by
  induction acts with
  | nil => intro w; simp [World.run_nil]
  | cons a rest ih =>
    intro w
    rw [World.run_cons, ih]
    cases a <;> simp [World.step, Action.message?, Action.sent?, ToolCallReq.AddMessage]

theorem callFn_of_resolves (calls2 : Registry) (call : ToolCall) (h : Resolves calls2 call) :
    callFn calls2 call = some (callSteps calls2 call, none) := by
  obtain ⟨c, fn, hc, hfn⟩ := h
  simp [callFn, callSteps, resultMessage, runHandler, Registry.get, hc, hfn]

theorem callFn_of_absent (calls2 : Registry) (call : ToolCall)
    (h : calls2.lookup call.Function.Name = none) : callFn calls2 call = none := by
  simp [callFn, Registry.get, h, C.zero]

theorem callSteps_messages (calls2 : Registry) (call : ToolCall) :
    (callSteps calls2 call).filterMap Action.message? = [resultMessage calls2 call] := by
  simp [callSteps, Action.message?, List.filterMap_append, List.filterMap_map]

theorem callSteps_sent (calls2 : Registry) (call : ToolCall) :
    (callSteps calls2 call).filterMap Action.sent? = (runHandler calls2 call).sent := by
  have h : (Action.sent? ∘ Action.send) = some := rfl
  simp [callSteps, Action.sent?, List.filterMap_append, List.filterMap_map, h]

theorem merge_perm {α : Type} (s : List Bool) : ∀ (xs ys : List α),
    (merge s xs ys).Perm (xs ++ ys) := by
  induction s with
  | nil =>
    intro xs ys
    cases xs <;> cases ys <;> simp [merge]
  | cons b s ih =>
    intro xs
    induction xs with
    | nil => intro ys; simp [merge]
    | cons x xs ihx =>
      intro ys
      induction ys with
      | nil => simp [merge]
      | cons y ys ihy =>
        cases b with
        | true =>
          simp only [merge, List.cons_append]
          exact (ih xs (y :: ys)).cons x
        | false =>
          simp only [merge]
          exact ((ih (x :: xs) ys).cons y).trans List.perm_middle.symm

theorem interleave_perm {α : Type} (ts : List (List α)) : ∀ (s : List (List Bool)),
    (interleave s ts).Perm ts.flatten := by
  induction ts with
  | nil => intro s; simp [interleave]
  | cons t ts ih =>
    intro s
    simp only [interleave, List.flatten_cons]
    exact (merge_perm _ _ _).trans ((ih _).append_left t)

theorem filterMap_flatMap_callSteps_messages (calls2 : Registry) (batch : List ToolCall) :
    (batch.flatMap (callSteps calls2)).filterMap Action.message? = batch.map (resultMessage calls2) := by
  induction batch with
  | nil => rfl
  | cons c rest ih =>
    simp [List.flatMap_cons, List.filterMap_append, callSteps_messages, ih]

theorem dealSequential_of_resolves (calls2 : Registry) (batch : List ToolCall) :
    ∀ w : World, (∀ call ∈ batch, Resolves calls2 call) →
      dealSequential calls2 w batch = .ret (w.run (batch.flatMap (callSteps calls2))) none := by
  induction batch with
  | nil => intro w _; rfl
  | cons c rest ih =>
    intro w h
    have hc := callFn_of_resolves calls2 c (h c (List.mem_cons_self _ _))
    simp only [dealSequential, hc]
    rw [ih _ (fun call hm => h call (List.mem_cons_of_mem _ hm)), List.flatMap_cons,
      World.run_append]

theorem reduceOption_map_some {α β : Type} (f : α → β) (l : List α) :
    (l.map fun a => some (f a)).reduceOption = l.map f := by
  induction l with
  | nil => rfl
  | cons a rest ih => simp only [List.map_cons, List.reduceOption_cons_of_some, ih]

theorem dealConcurrent_of_resolves (sched : List (List Bool)) (calls2 : Registry)
    (w : World) (batch : List ToolCall) (h : ∀ call ∈ batch, Resolves calls2 call) :
    dealConcurrent sched calls2 w batch =
      .ret (w.run (interleave sched (batch.map (callSteps calls2)))) none := by
  have hm : batch.map (callFn calls2) = batch.map fun c => some (callSteps calls2 c, none) :=
    List.map_congr_left fun c hc => callFn_of_resolves calls2 c (h c hc)
  have hany : ((batch.map fun c => some (callSteps calls2 c, (none : Option String))).any
      Option.isNone) = false := by
    simp
  have hfst : (Prod.fst ∘ fun c => (callSteps calls2 c, (none : Option String)))
      = callSteps calls2 := rfl
  unfold dealConcurrent
  simp only [hm, hany, reduceOption_map_some]
  simp [hfst]

theorem callFn_cases (calls2 : Registry) (call : ToolCall) :
    callFn calls2 call = none ∨ callFn calls2 call = some (callSteps calls2 call, none) := by
  cases h : (calls2.get call.Function.Name).1.CallFn with
  | none => left; simp [callFn, h]
  | some fn => right; simp [callFn, callSteps, resultMessage, runHandler, h]

theorem canConcurrent_cons (call : ToolCall) (rest : List ToolCall) (calls2 : Registry) :
    CanConcurrentDealToolCalls (call :: rest) calls2 =
      match calls2.lookup call.Function.Name with
      | some c => c.Concurrent && CanConcurrentDealToolCalls rest calls2
      | none => CanConcurrentDealToolCalls rest calls2 := by
  cases h : calls2.lookup call.Function.Name with
  | none => simp [CanConcurrentDealToolCalls, Registry.get, h]
  | some c => cases hc : c.Concurrent <;> simp [CanConcurrentDealToolCalls, Registry.get, h, hc]

theorem canConcurrent_false_iff (calls : List ToolCall) (calls2 : Registry) :
    CanConcurrentDealToolCalls calls calls2 = false ↔
      ∃ call ∈ calls, ∃ c, calls2.lookup call.Function.Name = some c ∧ c.Concurrent = false := by
  induction calls with
  | nil => simp [CanConcurrentDealToolCalls]
  | cons call rest ih =>
    rw [canConcurrent_cons]
    cases h : calls2.lookup call.Function.Name with
    | none => simp [ih, h]
    | some c =>
      cases hc : c.Concurrent with
      | false => simp [h, hc]
      | true => simp [ih, h, hc]

theorem canConcurrent_filter (calls : List ToolCall) (calls2 : Registry) :
    CanConcurrentDealToolCalls calls calls2 =
      CanConcurrentDealToolCalls
        (calls.filter fun call => (calls2.lookup call.Function.Name).isSome) calls2 := by
  induction calls with
  | nil => rfl
  | cons call rest ih =>
    cases h : calls2.lookup call.Function.Name with
    | none => simp [List.filter_cons, canConcurrent_cons, h, ← ih]
    | some c => simp [List.filter_cons, canConcurrent_cons, h, ← ih]

theorem dealSequential_of_absent (calls2 : Registry) (batch : List ToolCall) :
    ∀ w : World, (∃ call ∈ batch, calls2.lookup call.Function.Name = none) →
      dealSequential calls2 w batch = .panic := by
  induction batch with
  | nil => intro w h; simp at h
  | cons c rest ih =>
    intro w h
    rcases callFn_cases calls2 c with hc | hc
    · simp [dealSequential, hc]
    · have hne : calls2.lookup c.Function.Name ≠ none := by
        intro hn
        rw [callFn_of_absent calls2 c hn] at hc
        exact absurd hc (by simp)
      have hrest : ∃ call ∈ rest, calls2.lookup call.Function.Name = none := by
        obtain ⟨call, hm, hl⟩ := h
        rcases List.mem_cons.1 hm with rfl | hm
        · exact absurd hl hne
        · exact ⟨call, hm, hl⟩
      simp only [dealSequential, hc]
      exact ih _ hrest

theorem dealConcurrent_of_absent (sched : List (List Bool)) (calls2 : Registry) (w : World)
    (batch : List ToolCall) (h : ∃ call ∈ batch, calls2.lookup call.Function.Name = none) :
    dealConcurrent sched calls2 w batch = .panic := by
  obtain ⟨call, hm, hl⟩ := h
  have hany : ((batch.map (callFn calls2)).any Option.isNone) = true := by
    rw [List.any_eq_true]
    exact ⟨callFn calls2 call, List.mem_map_of_mem _ hm, by rw [callFn_of_absent calls2 call hl]; rfl⟩
  unfold dealConcurrent
  simp only [hany]
  rfl

theorem callSteps_invoked (calls2 : Registry) (call : ToolCall) :
    (callSteps calls2 call).filterMap Action.invoked? = [call] := by
  have h : (Action.invoked? ∘ Action.send) = fun _ => none := rfl
  simp [callSteps, Action.invoked?, List.filterMap_append, List.filterMap_map, h]

theorem flatMap_callSteps_invoked (calls2 : Registry) (batch : List ToolCall) :
    (batch.flatMap (callSteps calls2)).filterMap Action.invoked? = batch := by
  induction batch with
  | nil => rfl
  | cons c rest ih =>
    simp [List.flatMap_cons, List.filterMap_append, callSteps_invoked, ih]

theorem flatMap_callSteps_sent (calls2 : Registry) (batch : List ToolCall) :
    (batch.flatMap (callSteps calls2)).filterMap Action.sent?
      = batch.flatMap fun call => (runHandler calls2 call).sent := by
  induction batch with
  | nil => rfl
  | cons c rest ih =>
    simp [List.flatMap_cons, List.filterMap_append, callSteps_sent, ih]

theorem dealToolCalls_eq (sched : List (List Bool)) (w : World) (calls : List ToolCall)
    (calls2 : Registry) :
    dealToolCalls sched w calls calls2 =
      if CanConcurrentDealToolCalls calls calls2 = false then
        dealSequential calls2 (w.step (.addMessage (batchMessage calls))) calls
      else
        dealConcurrent sched calls2 (w.step (.addMessage (batchMessage calls))) calls := by
  cases h : CanConcurrentDealToolCalls calls calls2 <;> simp [dealToolCalls, batchMessage, h]

theorem pumpStep_of_not_carries (p : Pump) (e : Response) (h : e.carriesToolCalls = false) :
    pumpStep p e = { p with resCh := p.resCh ++ [e] } := by
  unfold pumpStep
  cases hc : e.Choices with
  | nil => rfl
  | cons c rest =>
    simp only [Response.carriesToolCalls, hc, List.any_cons, Bool.or_eq_false_iff] at h
    have h1 : ¬ (c.Delta.ToolCalls.length > 0) := of_decide_eq_false h.1
    simp only [if_neg h1]

theorem pumpStep_aggregated (p : Pump) (batch : List ToolCall) (h : batch ≠ []) :
    pumpStep p (aggregated batch) = { p with isToolCall := true, toolCalls := batch } := by
  cases batch with
  | nil => exact absurd rfl h
  | cons a l => simp [pumpStep, aggregated]

theorem pump_fold_content (content : List Response) :
    ∀ p : Pump, (∀ e ∈ content, e.carriesToolCalls = false) →
      content.foldl pumpStep p = { p with resCh := p.resCh ++ content } := by
  induction content with
  | nil => intro p _; simp
  | cons e rest ih =>
    intro p h
    rw [List.foldl_cons, pumpStep_of_not_carries p e (h e (List.mem_cons_self _ _)),
      ih _ (fun x hx => h x (List.mem_cons_of_mem _ hx))]
    simp

theorem dealSequential_ret_run (calls2 : Registry) (batch : List ToolCall) :
    ∀ (w w' : World) (err : Option String), dealSequential calls2 w batch = .ret w' err →
      ∃ acts, w' = w.run acts := by
  induction batch with
  | nil =>
    intro w w' err h
    simp only [dealSequential, Dealt.ret.injEq] at h
    exact ⟨[], h.1.symm⟩
  | cons c rest ih =>
    intro w w' err h
    rcases callFn_cases calls2 c with hc | hc
    · simp [dealSequential, hc] at h
    · simp only [dealSequential, hc] at h
      obtain ⟨acts, ha⟩ := ih _ _ _ h
      exact ⟨callSteps calls2 c ++ acts, by rw [World.run_append, ha]⟩

theorem dealConcurrent_ret_run (sched : List (List Bool)) (calls2 : Registry)
    (batch : List ToolCall) (w w' : World) (err : Option String)
    (h : dealConcurrent sched calls2 w batch = .ret w' err) : ∃ acts, w' = w.run acts := by
  unfold dealConcurrent at h
  by_cases hany : ((batch.map (callFn calls2)).any Option.isNone) = true
  · simp [hany] at h
  · simp only [hany, Bool.false_eq_true, if_false, Dealt.ret.injEq] at h
    exact ⟨_, h.1.symm⟩

theorem dealToolCalls_ret_run (sched : List (List Bool)) (w w' : World) (batch : List ToolCall)
    (calls2 : Registry) (err : Option String)
    (h : dealToolCalls sched w batch calls2 = .ret w' err) :
    ∃ acts, w' = w.run (Action.addMessage (batchMessage batch) :: acts) := by
  rw [dealToolCalls_eq] at h
  split at h
  · exact dealSequential_ret_run calls2 batch _ _ _ h
  · exact dealConcurrent_ret_run sched calls2 batch _ _ _ h

theorem dealToolCalls_ch (sched : List (List Bool)) (tm : ToolCallReq) (content : List Response)
    (w' : World) (batch : List ToolCall) (calls2 : Registry) (err : Option String)
    (h : dealToolCalls sched { tm := tm, ch := content, trace := [] } batch calls2 = .ret w' err) :
    w'.ch = content ++ w'.trace.filterMap Action.sent? := by
  obtain ⟨acts, ha⟩ := dealToolCalls_ret_run sched _ _ batch calls2 err h
  rw [ha, World.run_eq]
  simp

theorem loop_last (client : Nat → Client) (rnd : Nat → Nat → String)
    (sched : Nat → List (List Bool)) (calls : Registry) (fuel turn : Nat) (tm : ToolCallReq)
    (content : List Response)
    (hc : chatCompletion (client turn) (rnd turn) tm.ToOpenAIRequest = .ok content)
    (hn : ∀ e ∈ content, e.carriesToolCalls = false) :
    chatCompletionStreamWithCall client rnd sched calls (fuel + 1) turn tm = .ok content tm := by
  simp only [chatCompletionStreamWithCall, hc, pump_fold_content content _ hn]
  simp

theorem loop_next (client : Nat → Client) (rnd : Nat → Nat → String)
    (sched : Nat → List (List Bool)) (calls : Registry) (fuel turn : Nat) (tm : ToolCallReq)
    (content : List Response) (batch : List ToolCall) (w : World)
    (hc : chatCompletion (client turn) (rnd turn) tm.ToOpenAIRequest
      = .ok (content ++ [aggregated batch]))
    (hn : ∀ e ∈ content, e.carriesToolCalls = false) (hb : batch ≠ [])
    (hd : dealToolCalls (sched turn) { tm := tm, ch := content, trace := [] } batch calls
      = .ret w none) :
    chatCompletionStreamWithCall client rnd sched calls (fuel + 1) turn tm =
      match chatCompletionStreamWithCall client rnd sched calls fuel (turn + 1) w.tm with
      | .err err => .ok (w.ch ++ [errorResp err]) w.tm
      | .ok streamCompletion tm' => .ok (w.ch ++ streamCompletion) tm'
      | .panic => .panic
      | .timeout => .timeout := by
  simp only [chatCompletionStreamWithCall, hc, List.foldl_append, pump_fold_content content _ hn,
    List.foldl_cons, List.foldl_nil, pumpStep_aggregated _ batch hb]
  simp [hd]

theorem chain_run (client : Nat → Client) (rnd : Nat → Nat → String)
    (sched : Nat → List (List Bool)) (calls : Registry) (turn : Nat) (tm tm' : ToolCallReq)
    (segs : List (List Response × List Response))
    (h : Chain client rnd sched calls turn tm segs tm') :
    ∀ fuel, segs.length ≤ fuel →
      chatCompletionStreamWithCall client rnd sched calls fuel turn tm
        = .ok (chainOutput segs) tm' := by
  induction h with
  | last turn tm content hc hn =>
    intro fuel hf
    cases fuel with
    | zero => simp at hf
    | succ fuel =>
      rw [loop_last client rnd sched calls fuel turn tm content hc hn]
      simp [chainOutput]
  | next turn tm content batch w segs tm' hc hn hb hd _ ih =>
    intro fuel hf
    cases fuel with
    | zero => simp at hf
    | succ fuel =>
      rw [loop_next client rnd sched calls fuel turn tm content batch w hc hn hb hd,
        ih fuel (by simpa using hf)]
      simp [chainOutput, dealToolCalls_ch _ _ _ _ _ _ _ hd]

theorem chain_content (client : Nat → Client) (rnd : Nat → Nat → String)
    (sched : Nat → List (List Bool)) (calls : Registry) (turn : Nat) (tm tm' : ToolCallReq)
    (segs : List (List Response × List Response))
    (h : Chain client rnd sched calls turn tm segs tm') :
    ∀ p ∈ segs, ∀ e ∈ p.1, e.carriesToolCalls = false := by
  induction h with
  | last turn tm content hc hn =>
    intro p hp e he
    simp only [List.mem_singleton] at hp
    subst hp
    exact hn e he
  | next turn tm content batch w segs tm' hc hn hb hd _ ih =>
    intro p hp e he
    rcases List.mem_cons.1 hp with rfl | hp
    · exact hn e he
    · exact ih p hp e he

theorem prepare_tools_fold (base : List Tool) (tools : List C) :
    ∀ init : List Tool,
      tools.foldl (fun (_ : List Tool) call => base ++ [call.Tool]) init =
        match tools.getLast? with
        | none => init
        | some c => base ++ [c.Tool] := by
  induction tools with
  | nil => intro init; rfl
  | cons a rest ih =>
    intro init
    rw [List.foldl_cons, ih]
    cases rest with
    | nil => rfl
    | cons b rest2 =>
      rw [List.getLast?_cons_cons]
      cases h : (b :: rest2).getLast? with
      | none => simp at h
      | some c => rfl

theorem chatCompletion_ok (client : Client) (rnd : Nat → String) (req : ChatCompletionRequest)
    (s : ProviderStream) (hs : client req = .ok s) :
    chatCompletion client rnd req = .ok (relay rnd s) := by
  simp [chatCompletion, hs]

theorem content_not_carries (evs : List Response) :
    ∀ e ∈ (evs.takeWhile fun r => !r.carriesToolCalls).filter Response.carriesContent,
      e.carriesToolCalls = false := by
  intro e he
  have h1 := (List.mem_filter.1 he).1
  have h2 := List.mem_takeWhile_imp h1
  simpa using h2

theorem merge_nil_right {α : Type} (s : List Bool) (xs : List α) : merge s xs [] = xs := by
  cases s <;> cases xs <;> simp [merge]

theorem dealToolCalls_single (sched : List (List Bool)) (w : World) (call : ToolCall)
    (calls2 : Registry) (h : Resolves calls2 call) :
    dealToolCalls sched w [call] calls2 =
      .ret ((w.step (.addMessage (batchMessage [call]))).run (callSteps calls2 call)) none := by
  have hall : ∀ c ∈ [call], Resolves calls2 c := by
    intro c hc
    rw [List.mem_singleton] at hc
    rw [hc]
    exact h
  rw [dealToolCalls_eq]
  split
  · rw [dealSequential_of_resolves calls2 [call] _ hall]
    simp
  · rw [dealConcurrent_of_resolves sched calls2 _ [call] hall]
    simp [interleave, merge_nil_right]

/-! ## The claims -/

/-- C1 (merge law and independence law). Folding `fillToolCalls` over a fragment
sequence whose first fragment has a non-empty identifier, from the empty
accumulator, yields one call per fragment with a non-empty identifier, in
arrival order: the names and arguments of the result are `mergedCalls` of the
sequence (each call named after its starting fragment, its arguments those of
the starting fragment followed by those of the empty-identifier fragments up
to the next non-empty identifier), and there are as many calls as fragments
with a non-empty identifier. In particular the fragments `c1:f:{"x":` and
`:1}` merge to the single call `f` with arguments `{"x":1}`, and two fragments
with distinct non-empty identifiers give two separate calls. -/
theorem fillToolCalls_merge_law :
    (∀ (rnd : Nat → String) (f : ToolCall) (rest : List ToolCall), f.ID ≠ "" →
      (fillAll rnd [] (f :: rest)).map ToolCall.view = mergedCalls (f :: rest)
      ∧ (fillAll rnd [] (f :: rest)).length
          = (f :: rest).countP (fun g => decide (g.ID ≠ "")))
    ∧ (∀ rnd : Nat → String,
        (fillAll rnd [] mergeLawFragments).map ToolCall.view = [("f", "\x7b\"x\":1\x7d")])
    ∧ (∀ (rnd : Nat → String) (a b : ToolCall), a.ID ≠ "" → b.ID ≠ "" → a.ID ≠ b.ID →
        (fillAll rnd [] [a, b]).map ToolCall.view
          = [(a.Function.Name, a.Function.Arguments), (b.Function.Name, b.Function.Arguments)]) := by
  refine ⟨?_, ?_, ?_⟩
  · intro rnd f rest h
    have hv := fillAll_view rnd f rest h
    refine ⟨hv, ?_⟩
    have hl := congrArg List.length hv
    rw [List.length_map, mergedCalls_length] at hl
    exact hl
  · intro rnd
    rw [mergeLawFragments, fillAll_view rnd _ _ (by decide)]
    decide
  · intro rnd a b ha hb _
    rw [fillAll_view rnd a [b] ha, mergedCalls_cons_start _ _ ha, mergedCalls_cons_start _ _ hb]
    simp [hb, mergedCalls_nil, String.join]

theorem fillToolCalls_merge_law_witness :
    (callTo "c1" "f" "a").ID ≠ "" ∧
    ((fillAll (fun _ => "r") [] [callTo "c1" "f" "a", callTo "" "" "b", callTo "c2" "g" "c"]).map
        ToolCall.view
        = mergedCalls [callTo "c1" "f" "a", callTo "" "" "b", callTo "c2" "g" "c"]
      ∧ (fillAll (fun _ => "r") [] [callTo "c1" "f" "a", callTo "" "" "b", callTo "c2" "g" "c"]).length
        = [callTo "c1" "f" "a", callTo "" "" "b", callTo "c2" "g" "c"].countP
            (fun g => decide (g.ID ≠ ""))) :=
  ⟨by decide, fillToolCalls_merge_law.1 (fun _ => "r") (callTo "c1" "f" "a")
    [callTo "" "" "b", callTo "c2" "g" "c"] (by decide)⟩

/-- C2 (execution policy). `CanConcurrentDealToolCalls` is false exactly when
some call of the batch has a name that the registry binds to a tool with
`Concurrent = false`; calls whose names are absent never matter (dropping them
from the batch does not change the answer); and `dealToolCalls`, after it has
appended the assistant message, takes the sequential loop exactly when
`CanConcurrentDealToolCalls` is false and the `errgroup` branch otherwise. -/
theorem CanConcurrentDealToolCalls_policy (calls : List ToolCall) (calls2 : Registry) :
    (CanConcurrentDealToolCalls calls calls2 = false ↔
        ∃ call ∈ calls, ∃ c, calls2.lookup call.Function.Name = some c ∧ c.Concurrent = false)
    ∧ CanConcurrentDealToolCalls calls calls2 =
        CanConcurrentDealToolCalls
          (calls.filter fun call => (calls2.lookup call.Function.Name).isSome) calls2
    ∧ ∀ (sched : List (List Bool)) (w : World),
        dealToolCalls sched w calls calls2 =
          if CanConcurrentDealToolCalls calls calls2 = false then
            dealSequential calls2 (w.step (.addMessage (batchMessage calls))) calls
          else
            dealConcurrent sched calls2 (w.step (.addMessage (batchMessage calls))) calls :=
  ⟨canConcurrent_false_iff calls calls2, canConcurrent_filter calls calls2,
    fun sched w => dealToolCalls_eq sched w calls calls2⟩

/-- C3 (handler errors become content). When every call of the batch has a
registered handler, `dealToolCalls` returns `nil` under every schedule and
whatever the handlers return; the conversation gains the assistant message of
the batch and then exactly one tool-role message per call (a permutation of
the per-call messages; the order is the scheduler's in the concurrent branch),
each with the call's identifier as `ToolCallID`, and with content the text of
the handler's error when it fails and the handler's result when it succeeds.
So when a turn ends with such a batch, `chatCompletionStreamWithCall` goes on
to the provider call of the next turn on the updated conversation. -/
theorem dealToolCalls_errors_become_content (sched : List (List Bool)) (w : World)
    (batch : List ToolCall) (calls2 : Registry)
    (h : ∀ call ∈ batch, ∃ c fn, calls2.lookup call.Function.Name = some c ∧ c.CallFn = some fn) :
    (∃ w' toolMsgs, dealToolCalls sched w batch calls2 = .ret w' none
      ∧ w'.tm = ⟨{ w.tm.req with
                    Messages := w.tm.req.Messages ++ batchMessage batch :: toolMsgs }⟩
      ∧ toolMsgs.Perm (batch.map (resultMessage calls2)))
    ∧ (∀ call ∈ batch, ∀ c fn, calls2.lookup call.Function.Name = some c → c.CallFn = some fn →
        (resultMessage calls2 call).Role = "tool"
        ∧ (resultMessage calls2 call).ToolCallID = call.ID
        ∧ (∀ e, (fn (NewArgs call.Function.Arguments)).err = some e →
            (resultMessage calls2 call).Content = e)
        ∧ ((fn (NewArgs call.Function.Arguments)).err = none →
            (resultMessage calls2 call).Content = (fn (NewArgs call.Function.Arguments)).res))
    ∧ ∀ (client : Nat → Client) (rnd : Nat → Nat → String) (sch : Nat → List (List Bool))
        (fuel turn : Nat) (tm : ToolCallReq) (content : List Response),
        chatCompletion (client turn) (rnd turn) tm.ToOpenAIRequest
          = .ok (content ++ [aggregated batch]) →
        (∀ e ∈ content, e.carriesToolCalls = false) → batch ≠ [] →
        ∃ w', dealToolCalls (sch turn) { tm := tm, ch := content, trace := [] } batch calls2
            = .ret w' none
          ∧ chatCompletionStreamWithCall client rnd sch calls2 (fuel + 1) turn tm =
              match chatCompletionStreamWithCall client rnd sch calls2 fuel (turn + 1) w'.tm with
              | .err err => .ok (w'.ch ++ [errorResp err]) w'.tm
              | .ok streamCompletion tm' => .ok (w'.ch ++ streamCompletion) tm'
              | .panic => .panic
              | .timeout => .timeout := by
  have hret : ∀ (sched : List (List Bool)) (w : World),
      ∃ w', dealToolCalls sched w batch calls2 = .ret w' none := by
    intro sched w
    rw [dealToolCalls_eq]
    split
    · exact ⟨_, dealSequential_of_resolves calls2 batch _ h⟩
    · exact ⟨_, dealConcurrent_of_resolves sched calls2 _ batch h⟩
  refine ⟨?_, ?_, ?_⟩
  rotate_left 2
  · intro client rnd sch fuel turn tm content hc hn hb
    obtain ⟨w', hw⟩ := hret (sch turn) { tm := tm, ch := content, trace := [] }
    exact ⟨w', hw, loop_next client rnd sch calls2 fuel turn tm content batch w' hc hn hb hw⟩
  · rw [dealToolCalls_eq]
    cases hc : CanConcurrentDealToolCalls batch calls2 with
    | false =>
      rw [if_pos rfl, dealSequential_of_resolves calls2 batch _ h]
      refine ⟨_, batch.map (resultMessage calls2), rfl, ?_, List.Perm.refl _⟩
      rw [World.run_eq]
      simp [World.step, ToolCallReq.AddMessage, filterMap_flatMap_callSteps_messages]
    | true =>
      rw [if_neg (by simp), dealConcurrent_of_resolves sched calls2 _ batch h]
      refine ⟨_, (interleave sched (batch.map (callSteps calls2))).filterMap Action.message?,
        rfl, ?_, ?_⟩
      · rw [World.run_eq]
        simp [World.step, ToolCallReq.AddMessage]
      · have hp := (interleave_perm (batch.map (callSteps calls2)) sched).filterMap Action.message?
        have he : (batch.map (callSteps calls2)).flatten = batch.flatMap (callSteps calls2) := by
          simp [List.flatMap]
        rw [he, filterMap_flatMap_callSteps_messages] at hp
        exact hp
  · intro call _ c fn hc hfn
    refine ⟨rfl, rfl, ?_, ?_⟩
    · intro e he
      simp [resultMessage, runHandler, Registry.get, hc, hfn, CallResult.text, he]
    · intro he
      simp [resultMessage, runHandler, Registry.get, hc, hfn, CallResult.text, he]

theorem dealToolCalls_errors_become_content_witness :
    (∀ call ∈ sampleBatch,
        ∃ c fn, sampleRegistry.lookup call.Function.Name = some c ∧ c.CallFn = some fn)
    ∧ (∃ w' toolMsgs,
        dealToolCalls [[false, true]] sampleWorld sampleBatch sampleRegistry = .ret w' none
        ∧ w'.tm = ⟨{ sampleWorld.tm.req with
              Messages := sampleWorld.tm.req.Messages ++ batchMessage sampleBatch :: toolMsgs }⟩
        ∧ toolMsgs.Perm
            [{ Role := "tool", Content := "not found", ToolCalls := [], ToolCallID := "id1" },
             { Role := "tool", Content := "42", ToolCalls := [], ToolCallID := "id2" }]) :=
  have h : ∀ call ∈ sampleBatch,
      ∃ c fn, sampleRegistry.lookup call.Function.Name = some c ∧ c.CallFn = some fn := by
    intro call hc
    simp only [sampleBatch, List.mem_cons, List.mem_singleton, List.not_mem_nil, or_false] at hc
    rcases hc with rfl | rfl
    · exact ⟨_, _, rfl, rfl⟩
    · exact ⟨_, _, rfl, rfl⟩
  ⟨h, (dealToolCalls_errors_become_content [[false, true]] sampleWorld sampleBatch
    sampleRegistry h).1⟩

/-- C4 (sequential fallback). When every call of the batch has a registered
handler and some call names a tool with `Concurrent = false`, `dealToolCalls`
returns `nil` and its steps are, after the assistant message of the whole
batch, one block per call in the original call order: the handler is entered,
sends its events, and the call's tool-role message is appended before the next
handler is entered. So the handlers are entered in batch order, the
conversation is the prior messages, the assistant message and one tool-role
message per call in call order, and the channel gets the handlers' events in
call order. -/
theorem dealToolCalls_sequential_order (sched : List (List Bool)) (w : World)
    (batch : List ToolCall) (calls2 : Registry)
    (h : ∀ call ∈ batch, ∃ c fn, calls2.lookup call.Function.Name = some c ∧ c.CallFn = some fn)
    (hseq : ∃ call ∈ batch, ∃ c, calls2.lookup call.Function.Name = some c ∧ c.Concurrent = false) :
    ∃ w', dealToolCalls sched w batch calls2 = .ret w' none
      ∧ w'.trace = w.trace ++ Action.addMessage (batchMessage batch) ::
          batch.flatMap (fun call =>
            Action.invoke call :: (runHandler calls2 call).sent.map Action.send ++
              [Action.addMessage (resultMessage calls2 call)])
      ∧ w'.trace.filterMap Action.invoked? = w.trace.filterMap Action.invoked? ++ batch
      ∧ w'.tm = ⟨{ w.tm.req with
          Messages := w.tm.req.Messages ++ batchMessage batch :: batch.map (resultMessage calls2) }⟩
      ∧ w'.ch = w.ch ++ batch.flatMap fun call => (runHandler calls2 call).sent := by
  have hc := (canConcurrent_false_iff batch calls2).2 hseq
  rw [dealToolCalls_eq, if_pos hc, dealSequential_of_resolves calls2 batch _ h]
  refine ⟨_, rfl, ?_, ?_, ?_, ?_⟩
  · rw [World.run_eq]
    simp [World.step]
    rfl
  · rw [World.run_eq]
    simp [World.step, List.filterMap_append, flatMap_callSteps_invoked, Action.invoked?]
  · rw [World.run_eq]
    simp [World.step, ToolCallReq.AddMessage, filterMap_flatMap_callSteps_messages]
  · rw [World.run_eq]
    simp [World.step, flatMap_callSteps_sent]

theorem dealToolCalls_sequential_order_witness :
    (∀ call ∈ sampleBatch,
        ∃ c fn, sampleSequentialRegistry.lookup call.Function.Name = some c ∧ c.CallFn = some fn)
    ∧ (∃ call ∈ sampleBatch, ∃ c,
        sampleSequentialRegistry.lookup call.Function.Name = some c ∧ c.Concurrent = false)
    ∧ (∃ w', dealToolCalls [] sampleWorld sampleBatch sampleSequentialRegistry = .ret w' none
        ∧ w'.trace = sampleWorld.trace ++ Action.addMessage (batchMessage sampleBatch) ::
            sampleBatch.flatMap (fun call =>
              Action.invoke call ::
                (runHandler sampleSequentialRegistry call).sent.map Action.send ++
                  [Action.addMessage (resultMessage sampleSequentialRegistry call)])
        ∧ w'.trace.filterMap Action.invoked?
            = sampleWorld.trace.filterMap Action.invoked? ++ sampleBatch
        ∧ w'.tm = ⟨{ sampleWorld.tm.req with
            Messages := sampleWorld.tm.req.Messages ++ batchMessage sampleBatch ::
              sampleBatch.map (resultMessage sampleSequentialRegistry) }⟩
        ∧ w'.ch = sampleWorld.ch ++
            sampleBatch.flatMap fun call => (runHandler sampleSequentialRegistry call).sent) :=
  have h : ∀ call ∈ sampleBatch,
      ∃ c fn, sampleSequentialRegistry.lookup call.Function.Name = some c
        ∧ c.CallFn = some fn := by
    intro call hc
    simp only [sampleBatch, List.mem_cons, List.mem_singleton, List.not_mem_nil, or_false] at hc
    rcases hc with rfl | rfl
    · exact ⟨_, _, rfl, rfl⟩
    · exact ⟨_, _, rfl, rfl⟩
  have hseq : ∃ call ∈ sampleBatch, ∃ c,
      sampleSequentialRegistry.lookup call.Function.Name = some c ∧ c.Concurrent = false :=
    ⟨callTo "id1" "lookup" "\x7b\x7d", by simp [sampleBatch], _, rfl, rfl⟩
  ⟨h, hseq, dealToolCalls_sequential_order [] sampleWorld sampleBatch sampleSequentialRegistry
    h hseq⟩

/-- C5 (one aggregated event, last). For a provider stream `s` of one turn: when
some received event carries tool-call fragments, `chatCompletion` emits the
content events received before the first such event and then exactly one
aggregated event, which is the last one and the only event of the output that
carries tool calls; it carries the accumulator folded over
all fragments in arrival order (non-empty, and with the names and arguments of
`mergedCalls` when the first fragment has an identifier); the events before it
are a subsequence of the received ones and none of them carries tool calls.
When no received event carries tool-call fragments, the output is the received
content events followed by what `Recv` returned with a transport error, if the
stream ended so: nothing aggregated is emitted. -/
theorem chatCompletion_aggregates_tool_calls (client : Client) (rnd : Nat → String)
    (req : ChatCompletionRequest) (s : ProviderStream) (hs : client req = .ok s) :
    (s.events.any Response.carriesToolCalls = true →
      chatCompletion client rnd req =
        .ok ((s.events.takeWhile fun r => !r.carriesToolCalls).filter Response.carriesContent
              ++ [aggregated (fillAll rnd [] (fragments s.events))])
      ∧ fillAll rnd [] (fragments s.events) ≠ []
      ∧ ((s.events.takeWhile fun r => !r.carriesToolCalls).filter Response.carriesContent
              ++ [aggregated (fillAll rnd [] (fragments s.events))]).filter
            Response.carriesToolCalls
          = [aggregated (fillAll rnd [] (fragments s.events))]
      ∧ ((s.events.takeWhile fun r => !r.carriesToolCalls).filter
            Response.carriesContent).Sublist s.events
      ∧ (∀ e ∈ (s.events.takeWhile fun r => !r.carriesToolCalls).filter Response.carriesContent,
          e.carriesToolCalls = false)
      ∧ (∀ f rest, fragments s.events = f :: rest → f.ID ≠ "" →
          (fillAll rnd [] (fragments s.events)).map ToolCall.view
            = mergedCalls (fragments s.events)))
    ∧ (s.events.any Response.carriesToolCalls = false →
        chatCompletion client rnd req =
          .ok (s.events.filter Response.carriesContent ++
                match s.ending with
                | .eof => []
                | .failure _ response => [response])) := by
  rw [chatCompletion_ok client rnd req s hs, relay_eq]
  constructor
  · intro hT
    have hne := fillAll_ne_nil rnd [] (fragments s.events) (fragments_ne_nil _ hT)
    refine ⟨by simp [hT], hne, ?_, ?_, content_not_carries _, ?_⟩
    · rw [List.filter_append, List.filter_eq_nil_iff.2 (fun e he => by
        simp [content_not_carries _ e he])]
      simp [aggregated_carries _ hne]
    · exact (List.filter_sublist _).trans (List.takeWhile_sublist _)
    · intro f rest hf hid
      rw [hf]
      exact fillAll_view rnd f rest hid
  · intro hT
    simp [hT]

theorem chatCompletion_aggregates_tool_calls_witness :
    (fun _ => Except.ok sampleStream : Client) scenarioRequest = .ok sampleStream
    ∧ sampleStream.events.any Response.carriesToolCalls = true
    ∧ chatCompletion (fun _ => .ok sampleStream) (fun _ => "id") scenarioRequest =
        .ok ((sampleStream.events.takeWhile fun r => !r.carriesToolCalls).filter
                Response.carriesContent
              ++ [aggregated (fillAll (fun _ => "id") [] (fragments sampleStream.events))])
    ∧ (sampleStream.events.takeWhile fun r => !r.carriesToolCalls).filter Response.carriesContent
        = [contentEvent "hi"]
    ∧ fillAll (fun _ => "id") [] (fragments sampleStream.events)
        = [{ Index := some 0, ID := "id", Kind := "function",
             Function := { Name := "f", Arguments := "\x7b\"x\":1\x7d" } }] :=
  ⟨rfl, by decide,
    ((chatCompletion_aggregates_tool_calls (fun _ => .ok sampleStream) (fun _ => "id")
      scenarioRequest sampleStream rfl).1 (by decide)).1, by decide, by decide⟩

/-- C6 (passthrough law). For a turn whose provider stream ends with `io.EOF`
and in which no event carries tool-call fragments, the channel returned by
`chatCompletionStreamWithCall` carries exactly the received events that have
non-empty textual content, unchanged and in the provider's order, and is then
closed; none of them carries tool calls and the conversation is unchanged. -/
theorem chatCompletionStreamWithCall_passthrough (client : Nat → Client)
    (rnd : Nat → Nat → String) (sched : Nat → List (List Bool)) (calls : Registry)
    (fuel turn : Nat) (tm : ToolCallReq) (evs : List Response)
    (hs : client turn tm.ToOpenAIRequest = .ok { events := evs, ending := .eof })
    (hn : ∀ e ∈ evs, e.carriesToolCalls = false) :
    chatCompletionStreamWithCall client rnd sched calls (fuel + 1) turn tm
        = .ok (evs.filter Response.carriesContent) tm
    ∧ (evs.filter Response.carriesContent).Sublist evs
    ∧ ∀ e ∈ evs.filter Response.carriesContent, e.carriesToolCalls = false := by
  have hany : evs.any Response.carriesToolCalls = false := by
    rw [List.any_eq_false]
    intro e he
    simp [hn e he]
  have hc : chatCompletion (client turn) (rnd turn) tm.ToOpenAIRequest
      = .ok (evs.filter Response.carriesContent) := by
    rw [chatCompletion_ok _ _ _ _ hs, relay_eq]
    simp [hany]
  have hf : ∀ e ∈ evs.filter Response.carriesContent, e.carriesToolCalls = false :=
    fun e he => hn e (List.mem_filter.1 he).1
  exact ⟨loop_last client rnd sched calls fuel turn tm _ hc hf, List.filter_sublist _, hf⟩

theorem chatCompletionStreamWithCall_passthrough_witness :
    (fun _ _ => Except.ok { events := sampleContent, ending := .eof } : Nat → Client) 0
        sampleWorld.tm.ToOpenAIRequest = .ok { events := sampleContent, ending := .eof }
    ∧ (∀ e ∈ sampleContent, e.carriesToolCalls = false)
    ∧ chatCompletionStreamWithCall (fun _ _ => .ok { events := sampleContent, ending := .eof })
        (fun _ _ => "id") (fun _ => []) sampleRegistry 1 0 sampleWorld.tm
        = .ok [contentEvent "a", contentEvent "b"] sampleWorld.tm :=
  have hn : ∀ e ∈ sampleContent, e.carriesToolCalls = false := by decide
  ⟨rfl, hn,
    (chatCompletionStreamWithCall_passthrough
      (fun _ _ => .ok { events := sampleContent, ending := .eof })
      (fun _ _ => "id") (fun _ => []) sampleRegistry 0 0 sampleWorld.tm sampleContent rfl hn).1⟩

/-- C7 (transport error, the code's behaviour). When `Recv` fails with an error
other than `io.EOF` before any tool-call fragment, `chatCompletion` sends the
response value that `Recv` returned with the error, not `errorResp` of the
error: for the zero response go-openai returns on failure, the caller of
`chatCompletionStreamWithCall` receives one event without choices, which is
not the assistant-role event carrying the error text. -/
theorem chatCompletion_transport_error_forwards_response (rnd : Nat → Nat → String)
    (sched : Nat → List (List Bool)) (calls : Registry) (fuel turn : Nat) (tm : ToolCallReq)
    (err : String) (response : Response) :
    chatCompletion (fun _ => .ok { events := [], ending := .failure err response }) (rnd turn)
        tm.ToOpenAIRequest = .ok [response]
    ∧ chatCompletionStreamWithCall
        (fun _ _ => .ok { events := [], ending := .failure err zeroResponse })
        rnd sched calls (fuel + 1) turn tm = .ok [zeroResponse] tm
    ∧ zeroResponse ≠ errorResp err := by
  refine ⟨rfl, ?_, ?_⟩
  · exact loop_last _ rnd sched calls fuel turn tm [zeroResponse] rfl (by decide)
  · simp [zeroResponse, errorResp]

/-- C8 (unknown tool, the code's behaviour). When some call of the batch has a
name with no entry in the registry, `dealToolCalls` panics under every
schedule: `calls2[name]` is the zero `C`, whose `CallFn` is `nil`, and it is
called unchecked. No error is returned and no tool-role message records it. -/
theorem dealToolCalls_unknown_tool_panics (sched : List (List Bool)) (w : World)
    (batch : List ToolCall) (calls2 : Registry)
    (h : ∃ call ∈ batch, calls2.lookup call.Function.Name = none) :
    dealToolCalls sched w batch calls2 = .panic := by
  rw [dealToolCalls_eq]
  split
  · exact dealSequential_of_absent calls2 batch _ h
  · exact dealConcurrent_of_absent sched calls2 _ batch h

theorem dealToolCalls_unknown_tool_panics_witness :
    (∃ call ∈ [callTo "id1" "lookup" "\x7b\x7d", callTo "id3" "g" "\x7b\x7d"],
        sampleRegistry.lookup call.Function.Name = none)
    ∧ dealToolCalls [] sampleWorld [callTo "id1" "lookup" "\x7b\x7d", callTo "id3" "g" "\x7b\x7d"]
        sampleRegistry = .panic :=
  have h : ∃ call ∈ [callTo "id1" "lookup" "\x7b\x7d", callTo "id3" "g" "\x7b\x7d"],
      sampleRegistry.lookup call.Function.Name = none :=
    ⟨callTo "id3" "g" "\x7b\x7d", by simp, rfl⟩
  ⟨h, dealToolCalls_unknown_tool_panics [] sampleWorld _ sampleRegistry h⟩

/-- C9 (recursive continuation). For every finite chain of turns in which each
turn but the last ends with a tool batch, `chatCompletionStreamWithCall`, given
at least as much fuel as the chain has turns, returns the channel whose
contents are, turn after turn, the turn's forwarded content events followed by
the events sent by the handlers of the turn's batch, and ends with the chain's
conversation. No forwarded content event carries tool calls, so no event of the
output carries tool calls unless a handler itself sent it. In particular, when
turn 1 asks for one call to `f`, whose handler returns `42`, and turn 2 answers
with the content `Answer: ` followed by the last message of the conversation,
the output of `CreateChatCompletionStream` is exactly the content event
`Answer: 42`, and the conversation has gained the assistant message of the batch
and the tool message `42`. -/
theorem chatCompletionStreamWithCall_chain_output :
    (∀ (client : Nat → Client) (rnd : Nat → Nat → String) (sched : Nat → List (List Bool))
        (calls : Registry) (turn : Nat) (tm tm' : ToolCallReq)
        (segs : List (List Response × List Response)),
        Chain client rnd sched calls turn tm segs tm' →
          (∀ fuel, segs.length ≤ fuel →
            chatCompletionStreamWithCall client rnd sched calls fuel turn tm
              = .ok (chainOutput segs) tm')
          ∧ (∀ p ∈ segs, ∀ e ∈ p.1, e.carriesToolCalls = false)
          ∧ ((∀ p ∈ segs, ∀ e ∈ p.2, e.carriesToolCalls = false) →
              ∀ e ∈ chainOutput segs, e.carriesToolCalls = false))
    ∧ (∀ (rnd : Nat → Nat → String) (sched : Nat → List (List Bool)) (concurrent : Bool),
        CreateChatCompletionStream scenarioClient rnd sched 2 scenarioRequest
            [WithTools [constTool "f" "42" none concurrent]]
          = .ok [contentEvent "Answer: 42"]
              ⟨{ Model := "m",
                 Messages := scenarioRequest.Messages ++
                   [batchMessage [started (rnd 0 0) (callTo "c1" "f" "\x7b\x7d")],
                    { Role := "tool", Content := "42", ToolCalls := [], ToolCallID := rnd 0 0 }],
                 Tools := [(constTool "f" "42" none concurrent).Tool] }⟩) := by
  constructor
  · intro client rnd sched calls turn tm tm' segs h
    have hc := chain_content client rnd sched calls turn tm tm' segs h
    refine ⟨chain_run client rnd sched calls turn tm tm' segs h, hc, ?_⟩
    intro hh e he
    simp only [chainOutput, List.mem_flatMap, List.mem_append] at he
    obtain ⟨p, hp, he⟩ := he
    rcases he with he | he
    · exact hc p hp e he
    · exact hh p hp e he
  · intro rnd sched concurrent
    have hr : Resolves [("f", constTool "f" "42" none concurrent)]
        (started (rnd 0 0) (callTo "c1" "f" "\x7b\x7d")) :=
      ⟨constTool "f" "42" none concurrent, fun _ => { sent := [], res := "42", err := none },
        rfl, rfl⟩
    have hd := dealToolCalls_single (sched 0)
      { tm := NewToolCallReq { scenarioRequest with
                Tools := [(constTool "f" "42" none concurrent).Tool] },
        ch := [], trace := [] } _ _ hr
    have h0 : CreateChatCompletionStream scenarioClient rnd sched 2 scenarioRequest
          [WithTools [constTool "f" "42" none concurrent]]
        = chatCompletionStreamWithCall scenarioClient rnd sched
            [("f", constTool "f" "42" none concurrent)] 2 0
            (NewToolCallReq { scenarioRequest with
              Tools := [(constTool "f" "42" none concurrent).Tool] }) := rfl
    rw [h0, loop_next scenarioClient rnd sched _ 1 0 _ []
        [started (rnd 0 0) (callTo "c1" "f" "\x7b\x7d")] _ rfl (by simp) (by simp) hd,
      loop_last scenarioClient rnd sched _ 0 1
        (({ tm := NewToolCallReq { scenarioRequest with
                    Tools := [(constTool "f" "42" none concurrent).Tool] },
            ch := [], trace := [] } : World).step
          (Action.addMessage (batchMessage [started (rnd 0 0) (callTo "c1" "f" "\x7b\x7d")]))
          |>.run (callSteps [("f", constTool "f" "42" none concurrent)]
            (started (rnd 0 0) (callTo "c1" "f" "\x7b\x7d")))).tm
        [contentEvent "Answer: 42"] rfl (by decide)]
    rfl

theorem chatCompletionStreamWithCall_chain_output_witness :
    Chain scenarioClient (fun _ _ => "id") (fun _ => []) scenarioRegistry 0
        (NewToolCallReq scenarioRequest)
        [([], []), ([contentEvent "Answer: 42"], [])] scenarioWorld.tm
    ∧ chatCompletionStreamWithCall scenarioClient (fun _ _ => "id") (fun _ => [])
        scenarioRegistry 2 0 (NewToolCallReq scenarioRequest)
        = .ok [contentEvent "Answer: 42"] scenarioWorld.tm :=
  have hch : Chain scenarioClient (fun _ _ => "id") (fun _ => []) scenarioRegistry 0
      (NewToolCallReq scenarioRequest)
      [([], []), ([contentEvent "Answer: 42"], [])] scenarioWorld.tm :=
    @Chain.next scenarioClient (fun _ _ => "id") (fun _ => []) scenarioRegistry
      0 (NewToolCallReq scenarioRequest) [] scenarioBatch scenarioWorld
      [([contentEvent "Answer: 42"], [])] scenarioWorld.tm rfl (by decide) (by decide) rfl
      (@Chain.last scenarioClient (fun _ _ => "id") (fun _ => []) scenarioRegistry
        1 scenarioWorld.tm [contentEvent "Answer: 42"] rfl (by decide))
  ⟨hch, (chatCompletionStreamWithCall_chain_output.1 scenarioClient (fun _ _ => "id")
    (fun _ => []) scenarioRegistry 0 (NewToolCallReq scenarioRequest) scenarioWorld.tm
    [([], []), ([contentEvent "Answer: 42"], [])] hch).1 2 (by decide)⟩

/-- C10 (advertised tools, the code's behaviour). The request
`CreateChatCompletionStream` builds has as tools the request's own tools
followed by the last supplied tool only, and no tools at all when none is
supplied: each pass of the loop appends to `req.Tools` instead of to the list
being built. With the tools `a` and `b` supplied, the provider is sent `b` only,
although `a` is in the registry. -/
theorem prepare_advertises_only_last_tool (req : ChatCompletionRequest) (tools : List C) :
    (prepare req [WithTools tools]).1.Tools =
        (match tools.getLast? with
         | none => []
         | some c => req.Tools ++ [c.Tool])
    ∧ (∀ (rnd : Nat → Nat → String) (sched : Nat → List (List Bool)),
        CreateChatCompletionStream
            (fun _ r => .error (String.intercalate "," (r.Tools.map fun t => t.Function.Name)))
            rnd sched 1 scenarioRequest
            [WithTools [constTool "a" "" none true, constTool "b" "" none true]]
          = .err "b")
    ∧ (((prepare scenarioRequest
          [WithTools [constTool "a" "" none true, constTool "b" "" none true]]).2.lookup "a").isSome
        = true) := by
  refine ⟨?_, ?_, ?_⟩
  · simp only [prepare, WithTools, List.foldl_cons, List.foldl_nil, newOption]
    exact prepare_tools_fold req.Tools tools []
  · intro rnd sched
    rfl
  · decide

end Myai
